import Mathlib

/-!
# The subspace layer of fdb-go (`fdb/subspace/subspace.go`)

A shallow embedding of the subspace package.  Go byte slices are references
into backing arrays, and `FromBytes` is specified in terms of what happens when
the caller later writes through its own slice, so the embedding keeps an
explicit memory: every function that allocates takes the memory and returns the
new one.

* `Mem`, `Slice`, `load`, `make`, `copy`, `setIndex`: the Go slice model.
* `HasPrefix`, `Compare`: `bytes.HasPrefix` and the byte-wise key order.
* `concat`, `subspace` and its methods: the package itself.

The tuple package is not part of the sources at hand.  Its two functions used
here, `Tuple.Pack` and `tuple.Unpack`, are parameters `tuplePack` and
`tupleUnpack` of the methods that call them; `tuple.Tuple` is a slice of
elements, `List Elem` for an arbitrary element type.
-/

namespace FdbGo

/-! ## Go slices over an explicit memory -/

/-- One byte. -/
abbrev Byte := Fin 256

/-- A Go slice header: the backing array it points into, the offset of its
first element in that array, and its length.  The nil slice has length 0. -/
structure Slice where
  arr : Nat
  off : Nat
  len : Nat
deriving DecidableEq, Repr

/-- The memory: the bytes of every backing array (`cell a i` is element `i` of
array `a`) and the identifier the next allocation receives. -/
structure Mem where
  cell : Nat → Nat → Byte
  next : Nat

/-- The nil slice, the zero value of `[]byte`. -/
def Slice.nil : Slice := ⟨0, 0, 0⟩

/-- The slice expression `s[n:]`; Go requires `n ≤ len(s)`. -/
def Slice.suffixFrom (s : Slice) (n : Nat) : Slice := ⟨s.arr, s.off + n, s.len - n⟩

/-- The bytes a slice denotes in a memory. -/
def load (m : Mem) (s : Slice) : List Byte :=
  (List.range s.len).map fun i => m.cell s.arr (s.off + i)

/-- A slice is live in a memory when it is empty or points into an array that
has been allocated. -/
def live (m : Mem) (s : Slice) : Prop := s.len = 0 ∨ s.arr < m.next

instance (m : Mem) (s : Slice) : Decidable (live m s) := by
  unfold live; infer_instance

/-- The builtin `make([]byte, n)`: a fresh, zeroed array of `n` bytes. -/
def make (m : Mem) (n : Nat) : Mem × Slice :=
  ({ cell := fun a i => if a = m.next then 0 else m.cell a i, next := m.next + 1 },
   ⟨m.next, 0, n⟩)

/-- The builtin `copy(dst, src)`, with `src` given by the bytes it holds when
the call is made: the first `min(len(dst), len(src))` bytes of `src` are
written to the start of `dst`. -/
def copy (m : Mem) (dst : Slice) (src : List Byte) : Mem :=
  { m with
    cell := fun a i =>
      if a = dst.arr ∧ dst.off ≤ i ∧ i - dst.off < min dst.len src.length then
        src.getD (i - dst.off) 0
      else m.cell a i }

/-- The assignment `s[i] = v`; `none` is the index-out-of-range panic. -/
def setIndex (m : Mem) (s : Slice) (i : Nat) (v : Byte) : Option Mem :=
  if i < s.len then
    some { m with cell := fun a j => if a = s.arr ∧ j = s.off + i then v else m.cell a j }
  else none

/-! ## Library functions on byte strings -/

/-- The function `bytes.HasPrefix(s, pre)`:
`len(s) >= len(pre) && bytes.Equal(s[0:len(pre)], pre)`. -/
def HasPrefix (s pre : List Byte) : Bool :=
  decide (pre.length ≤ s.length) && (s.take pre.length == pre)

/-- The function `bytes.Compare`, the byte-wise lexicographic order of keys. -/
def Compare : List Byte → List Byte → Ordering
  | [], [] => .eq
  | [], _ :: _ => .lt
  | _ :: _, [] => .gt
  | a :: as, b :: bs =>
    if a < b then .lt else if b < a then .gt else Compare as bs

/-- Key order: `x` sorts strictly before `y`. -/
def keyLT (x y : List Byte) : Prop := Compare x y = .lt

/-- Key order: `x` sorts before `y` or equals it. -/
def keyLE (x y : List Byte) : Prop := Compare x y ≠ .gt

instance (x y : List Byte) : Decidable (keyLT x y) := by unfold keyLT; infer_instance

instance (x y : List Byte) : Decidable (keyLE x y) := by unfold keyLE; infer_instance

/-! ## The subspace package -/

/-- The message of the error `Unpack` builds with `errors.New`. -/
def errNotInSubspace : String := "key is not in subspace"

/-- The type `subspace`: a struct with the single field `b []byte`. -/
structure subspace where
  b : Slice
deriving DecidableEq, Repr

/-- The function `concat(a []byte, b ...byte) []byte`:
`r := make([]byte, len(a)+len(b)); copy(r, a); copy(r[len(a):], b); return r`.
The variadic argument is given by its bytes. -/
def concat (m : Mem) (a : Slice) (b : List Byte) : Mem × Slice :=
  let (m1, r) := make m (a.len + b.length)
  let m2 := copy m1 r (load m1 a)
  let m3 := copy m2 (r.suffixFrom a.len) b
  (m3, r)

/-- The function `AllKeys`: `subspace{}`, whose field is the nil slice. -/
def AllKeys : subspace := ⟨Slice.nil⟩

/-- The function `FromBytes`:
`s := make([]byte, len(b)); copy(s, b); return subspace{b}`. -/
def FromBytes (m : Mem) (b : Slice) : Mem × subspace :=
  let (m1, s) := make m b.len
  let m2 := copy m1 s (load m1 b)
  (m2, ⟨b⟩)

/-- The method `Bytes`: `return s.b`. -/
def subspace.Bytes (s : subspace) : Slice := s.b

/-- The method `Sub`: `subspace{concat(s.Bytes(), tuple.Tuple(el).Pack()...)}`. -/
def subspace.Sub {Elem : Type} (tuplePack : List Elem → List Byte)
    (m : Mem) (s : subspace) (el : List Elem) : Mem × subspace :=
  let r := concat m s.Bytes (tuplePack el)
  (r.1, ⟨r.2⟩)

/-- The method `Pack`: `fdb.Key(concat(s.b, t.Pack()...))`. -/
def subspace.Pack {Elem : Type} (tuplePack : List Elem → List Byte)
    (m : Mem) (s : subspace) (t : List Elem) : Mem × Slice :=
  concat m s.b (tuplePack t)

/-- The method `Unpack`, on the key `k.ToFDBKey()`:
`if !bytes.HasPrefix(key, s.b) { return nil, errors.New(...) }` and then
`return tuple.Unpack(key[len(s.b):])`.  An error is represented by its message. -/
def subspace.Unpack {Elem : Type} (tupleUnpack : List Byte → Except String (List Elem))
    (m : Mem) (s : subspace) (key : Slice) : Except String (List Elem) :=
  if !HasPrefix (load m key) (load m s.b) then
    .error errNotInSubspace
  else
    tupleUnpack (load m (key.suffixFrom s.b.len))

/-- The method `Contains`: `bytes.HasPrefix(k.ToFDBKey(), s.b)`. -/
def subspace.Contains (m : Mem) (s : subspace) (key : Slice) : Bool :=
  HasPrefix (load m key) (load m s.b)

/-- The method `ToFDBKey`: `fdb.Key(s.b)`. -/
def subspace.ToFDBKey (s : subspace) : Slice := s.b

/-- The method `BeginKey`: `concat(s.b, 0x00)`. -/
def subspace.BeginKey (m : Mem) (s : subspace) : Mem × Slice := concat m s.b [0x00]

/-- The method `EndKey`: `concat(s.b, 0xFF)`. -/
def subspace.EndKey (m : Mem) (s : subspace) : Mem × Slice := concat m s.b [0xFF]

/-- The bytes of a slice returned together with the memory it lives in. -/
def bytesOf (r : Mem × Slice) : List Byte := load r.1 r.2

/-- The prefix bytes of a subspace returned together with its memory. -/
def prefixOf (r : Mem × subspace) : List Byte := load r.1 r.2.b

/-! ## Example data: memories, keys and a stand-in codec -/

/-- A memory with one allocated array holding `1, 2, 3`. -/
def mem0 : Mem := ⟨fun a i => if a = 0 then [1, 2, 3].getD i 0 else 0, 1⟩

/-- The slice over all of array 0 of `mem0`. -/
def buf0 : Slice := ⟨0, 0, 3⟩

/-- A small codec: a tuple of bytes is packed as the bytes themselves. -/
def exPack (t : List Byte) : List Byte := t

/-- The decoder of the small codec: the byte `0xFF` is no element. -/
def exUnpack (bs : List Byte) : Except String (List Byte) :=
  if 255 ∈ bs then .error "unknown typecode" else .ok bs

/-- A memory with two arrays: array 0 holds `1, 2, 3`, array 1 holds
`1, 2, 3, 255, 7`. -/
def mem1 : Mem :=
  ⟨fun a i => if a = 0 then [1, 2, 3].getD i 0 else if a = 1 then [1, 2, 3, 255, 7].getD i 0 else 0, 2⟩

/-- The key `1, 2, 3, 255` in `mem1`. -/
def keyFF : Slice := ⟨1, 0, 4⟩

/-- The key `1, 2, 3` in `mem1`, taken from array 1. -/
def key123 : Slice := ⟨1, 0, 3⟩

/-- The key `2, 3, 255, 7` in `mem1`. -/
def keyOther : Slice := ⟨1, 1, 4⟩

/-! ## The definitions on the example data -/

example : load mem0 buf0 = [1, 2, 3] := by decide
example : bytesOf (concat mem0 buf0 [7, 8]) = [1, 2, 3, 7, 8] := by decide
example : bytesOf (subspace.BeginKey mem0 ⟨buf0⟩) = [1, 2, 3, 0] := by decide
example : bytesOf (subspace.EndKey mem0 ⟨buf0⟩) = [1, 2, 3, 255] := by decide
example : load mem1 keyFF = [1, 2, 3, 255] := by decide
example : load mem1 keyOther = [2, 3, 255, 7] := by decide
example : subspace.Contains mem1 ⟨buf0⟩ keyFF = true := by decide
example : subspace.Contains mem1 ⟨buf0⟩ keyOther = false := by decide
example : subspace.Unpack exUnpack mem1 ⟨buf0⟩ keyOther = .error errNotInSubspace := rfl
example : subspace.Unpack exUnpack mem1 ⟨⟨0, 0, 2⟩⟩ key123 = .ok [3] := rfl
example : subspace.Unpack exUnpack mem1 ⟨buf0⟩ keyFF = .error "unknown typecode" := rfl

/-! ## Memory lemmas -/

theorem load_length (m : Mem) (s : Slice) : (load m s).length = s.len := by
  simp [load]

theorem load_getElem (m : Mem) (s : Slice) (i : Nat) (h : i < (load m s).length) :
    (load m s)[i] = m.cell s.arr (s.off + i) := by
  simp [load]

theorem load_congr (m m1 : Mem) (s : Slice)
    (h : ∀ i, i < s.len → m1.cell s.arr (s.off + i) = m.cell s.arr (s.off + i)) :
    load m1 s = load m s := by
  unfold load
  apply List.map_congr_left
  intro i hi
  exact h i (List.mem_range.mp hi)

theorem load_make (m : Mem) (n : Nat) (s : Slice) (hs : live m s) :
    load (make m n).1 s = load m s := by
  apply load_congr
  intro i hi
  rcases hs with h0 | hlt
  · omega
  · have hne : s.arr ≠ m.next := by omega
    simp [make, hne]

theorem load_copy_other (m : Mem) (dst s : Slice) (src : List Byte)
    (h : s.len = 0 ∨ s.arr ≠ dst.arr) : load (copy m dst src) s = load m s := by
  apply load_congr
  intro i hi
  rcases h with h0 | hne
  · omega
  · simp [copy, hne]

theorem make_next (m : Mem) (n : Nat) : (make m n).1.next = m.next + 1 := rfl

theorem copy_next (m : Mem) (dst : Slice) (src : List Byte) : (copy m dst src).next = m.next := rfl

theorem concat_next (m : Mem) (a : Slice) (b : List Byte) :
    (concat m a b).1.next = m.next + 1 := rfl

theorem concat_slice (m : Mem) (a : Slice) (b : List Byte) :
    (concat m a b).2 = ⟨m.next, 0, a.len + b.length⟩ := rfl

/-- Every slice that is live before `concat` is live afterwards. -/
theorem live_concat (m : Mem) (a : Slice) (b : List Byte) (s : Slice) (hs : live m s) :
    live (concat m a b).1 s := by
  rcases hs with h0 | hlt
  · exact Or.inl h0
  · right; rw [concat_next]; omega

/-- The slice `concat` returns is live in the memory it returns. -/
theorem live_concat_result (m : Mem) (a : Slice) (b : List Byte) :
    live (concat m a b).1 (concat m a b).2 := by
  right; rw [concat_next, concat_slice]; exact Nat.lt_succ_self _

theorem concat_mem (m : Mem) (a : Slice) (b : List Byte) :
    (concat m a b).1 =
      copy (copy (make m (a.len + b.length)).1 ⟨m.next, 0, a.len + b.length⟩
        (load (make m (a.len + b.length)).1 a)) ⟨m.next, a.len, b.length⟩ b := by
  simp [concat, make, Slice.suffixFrom]

/-- Frame: `concat` writes only to the array it allocates. -/
theorem load_concat_frame (m : Mem) (a : Slice) (b : List Byte) (s : Slice) (hs : live m s) :
    load (concat m a b).1 s = load m s := by
  have hne : s.len = 0 ∨ s.arr ≠ m.next := by
    rcases hs with h0 | hlt
    · exact Or.inl h0
    · right; omega
  rw [concat_mem, load_copy_other _ _ _ _ hne, load_copy_other _ _ _ _ hne, load_make _ _ _ hs]

/-- Content: the slice `concat` returns holds the bytes of `a` followed by `b`. -/
theorem load_concat (m : Mem) (a : Slice) (b : List Byte) (ha : live m a) :
    load (concat m a b).1 (concat m a b).2 = load m a ++ b := by
  have hla : load (make m (a.len + b.length)).1 a = load m a := load_make m _ a ha
  apply List.ext_getElem
  · simp [load_length, concat_slice]
  · intro i h1 h2
    rw [load_getElem]
    have hi : i < a.len + b.length := by simpa [load_length, concat_slice] using h1
    rw [concat_mem, hla, concat_slice]
    by_cases hlt : i < a.len
    · rw [List.getElem_append_left (by simpa [load_length] using hlt)]
      have h3 : ¬ (a.len ≤ i) := by omega
      simp [copy, h3, hlt, load_length, List.getD_eq_getElem?_getD]
    · rw [List.getElem_append_right (by simpa [load_length] using hlt)]
      have h3 : a.len ≤ i := by omega
      have h4 : i - a.len < b.length := by omega
      simp [copy, h3, h4, load_length, List.getD_eq_getElem?_getD]

theorem load_suffixFrom (m : Mem) (s : Slice) (n : Nat) :
    load m (s.suffixFrom n) = (load m s).drop n := by
  apply List.ext_getElem
  · simp [load_length, Slice.suffixFrom]
  · intro i h1 h2
    rw [load_getElem, List.getElem_drop, load_getElem]
    simp [Slice.suffixFrom, Nat.add_assoc]

/-! ## Lemmas on `HasPrefix` and `Compare` -/

theorem HasPrefix_iff (s pre : List Byte) : HasPrefix s pre = true ↔ pre <+: s := by
  unfold HasPrefix
  rw [List.prefix_iff_eq_take]
  constructor
  · intro h
    simp only [Bool.and_eq_true, decide_eq_true_eq, beq_iff_eq] at h
    exact h.2.symm
  · intro h
    simp only [Bool.and_eq_true, decide_eq_true_eq, beq_iff_eq]
    refine ⟨?_, h.symm⟩
    have := congrArg List.length h
    rw [List.length_take] at this
    omega

theorem Compare_append_left (p x y : List Byte) : Compare (p ++ x) (p ++ y) = Compare x y := by
  induction p with
  | nil => rfl
  | cons a p ih => simp [Compare, ih]

theorem Compare_nil_left (y : List Byte) : Compare [] y ≠ .gt := by
  cases y <;> simp [Compare]

theorem Compare_nil_right (x : List Byte) : Compare x [] ≠ .lt := by
  cases x <;> simp [Compare]

/-- The key `[0x00]` sorts at or before every non-empty key. -/
theorem keyLE_zero_cons (c : Byte) (r : List Byte) : keyLE [0] (c :: r) := by
  unfold keyLE
  by_cases h : (0 : Byte) < c
  · simp [Compare, h]
  · have h2 : ¬ c < 0 := by simp
    simp only [Compare, h, h2, if_false]
    exact Compare_nil_left r

/-- A non-empty key sorts strictly before `[0xFF]` exactly when its first byte
is not `0xFF`. -/
theorem keyLT_cons_ff (c : Byte) (r : List Byte) : keyLT (c :: r) [255] ↔ c ≠ 255 := by
  unfold keyLT
  have hle : c ≤ 255 := Fin.le_last c
  constructor
  · intro h hc
    subst hc
    simp only [Compare, lt_self_iff_false, if_false] at h
    exact Compare_nil_right r h
  · intro hc
    have : c < 255 := lt_of_le_of_ne hle hc
    simp [Compare, this]

/-- A key between `p ++ [0x00]` and `p ++ [0xFF]` extends `p` properly. -/
theorem between_sentinels (p k : List Byte)
    (h1 : keyLE (p ++ [0]) k) (h2 : keyLT k (p ++ [255])) : p <+: k ∧ k ≠ p := by
  induction p generalizing k with
  | nil =>
    cases k with
    | nil => exact absurd (by simp [Compare]) h1
    | cons c r => exact ⟨List.nil_prefix, by simp⟩
  | cons a p ih =>
    cases k with
    | nil => exact absurd (by simp [Compare]) h1
    | cons b k =>
      unfold keyLE at h1
      unfold keyLT at h2
      simp only [List.cons_append, Compare] at h1 h2
      by_cases hba : b < a
      · simp [hba, not_lt_of_lt hba] at h1
      · by_cases hab : a < b
        · simp [hab, hba] at h2
        · simp only [hab, hba, if_false] at h1 h2
          have hEq : a = b := le_antisymm (not_lt.mp hba) (not_lt.mp hab)
          subst hEq
          obtain ⟨hp, hne⟩ := ih k h1 h2
          refine ⟨?_, ?_⟩
          · exact (List.cons_prefix_cons).mpr ⟨rfl, hp⟩
          · intro h; exact hne (List.cons.inj h).2

/-! ## Lemmas on the methods -/

theorem Contains_iff (m : Mem) (s : subspace) (key : Slice) :
    s.Contains m key = true ↔ load m s.b <+: load m key :=
  HasPrefix_iff _ _

theorem bytesOf_Pack {Elem : Type} (tuplePack : List Elem → List Byte)
    (m : Mem) (s : subspace) (t : List Elem) (hs : live m s.b) :
    bytesOf (s.Pack tuplePack m t) = load m s.b ++ tuplePack t :=
  load_concat m s.b _ hs

theorem prefixOf_Sub {Elem : Type} (tuplePack : List Elem → List Byte)
    (m : Mem) (s : subspace) (el : List Elem) (hs : live m s.b) :
    prefixOf (s.Sub tuplePack m el) = load m s.b ++ tuplePack el :=
  load_concat m s.b _ hs

theorem live_Sub {Elem : Type} (tuplePack : List Elem → List Byte)
    (m : Mem) (s : subspace) (el : List Elem) :
    live (s.Sub tuplePack m el).1 (s.Sub tuplePack m el).2.b :=
  live_concat_result m s.b _

theorem bytesOf_BeginKey (m : Mem) (s : subspace) (hs : live m s.b) :
    bytesOf (s.BeginKey m) = load m s.b ++ [0] :=
  load_concat m s.b _ hs

theorem bytesOf_EndKey (m : Mem) (s : subspace) (hs : live m s.b) :
    bytesOf (s.EndKey m) = load m s.b ++ [255] :=
  load_concat m s.b _ hs

theorem Unpack_outside {Elem : Type}
    (tupleUnpack : List Byte → Except String (List Elem)) (m : Mem) (s : subspace) (key : Slice)
    (h : ¬ load m s.b <+: load m key) :
    s.Unpack tupleUnpack m key = .error errNotInSubspace := by
  have hf : HasPrefix (load m key) (load m s.b) = false := by
    rw [← Bool.not_eq_true, HasPrefix_iff]; exact h
  simp [subspace.Unpack, hf]

theorem Unpack_inside {Elem : Type}
    (tupleUnpack : List Byte → Except String (List Elem)) (m : Mem) (s : subspace) (key : Slice)
    (h : load m s.b <+: load m key) :
    s.Unpack tupleUnpack m key = tupleUnpack ((load m key).drop s.b.len) := by
  have ht : HasPrefix (load m key) (load m s.b) = true := (HasPrefix_iff _ _).mpr h
  simp [subspace.Unpack, ht, load_suffixFrom]

/-- The subspace `FromBytes` returns holds the very slice it was given. -/
theorem FromBytes_slice (m : Mem) (b : Slice) : (FromBytes m b).2.b = b := rfl

/-- Right after the call the prefix is what the caller's buffer holds. -/
theorem prefixOf_FromBytes (m : Mem) (b : Slice) (hb : live m b) :
    prefixOf (FromBytes m b) = load m b := by
  have hne : b.len = 0 ∨ b.arr ≠ m.next := by
    rcases hb with h0 | hlt
    · exact Or.inl h0
    · right; omega
  show load (copy (make m b.len).1 ⟨m.next, 0, b.len⟩ (load (make m b.len).1 b)) b = load m b
  rw [load_copy_other _ _ _ _ hne, load_make _ _ _ hb]

theorem exUnpack_ne (bs : List Byte) : exUnpack bs ≠ .error errNotInSubspace := by
  unfold exUnpack
  split
  · intro h
    injection h with h
    exact absurd h (by decide)
  · intro h
    cases h

/-! ## The claims -/

/-- C1, evaluated where it fails.  `FromBytes` allocates and fills a copy but
returns `subspace{b}`, so the subspace holds the caller's own slice.  For the
buffer `buf0` (bytes 1, 2, 3) of `mem0`: the returned `Bytes()` is `buf0`
itself and the prefix right after the call is 1, 2, 3; after the caller's
assignment `b[0] = 9` the prefix is 9, 2, 3, `BeginKey` and `EndKey` are
9, 2, 3, 0 and 9, 2, 3, 255, `Pack` starts with 9, and the subspace no longer
contains the key 1, 2, 3 (array 1, the copy `FromBytes` made and dropped, which
still holds the original bytes). -/
theorem FromBytes_aliases_caller_buffer :
    (FromBytes mem0 buf0).2.Bytes = buf0 ∧
    prefixOf (FromBytes mem0 buf0) = [1, 2, 3] ∧
    ∃ m1, setIndex (FromBytes mem0 buf0).1 buf0 0 9 = some m1 ∧
      load m1 (FromBytes mem0 buf0).2.Bytes = [9, 2, 3] ∧
      bytesOf ((FromBytes mem0 buf0).2.BeginKey m1) = [9, 2, 3, 0] ∧
      bytesOf ((FromBytes mem0 buf0).2.EndKey m1) = [9, 2, 3, 255] ∧
      bytesOf ((FromBytes mem0 buf0).2.Pack exPack m1 [4]) = [9, 2, 3, 4] ∧
      (FromBytes mem0 buf0).2.Contains m1 ⟨1, 0, 3⟩ = false ∧
      load m1 ⟨1, 0, 3⟩ = [1, 2, 3] :=
  ⟨rfl, by decide, _, rfl, by decide, by decide, by decide, by decide, by decide, by decide⟩

/-- C2.  `Unpack` on a key that does not start with the prefix returns the
error "key is not in subspace"; on a key that starts with the prefix it
returns exactly what `tuple.Unpack` returns on the key without its first
`len(prefix)` bytes, a decoding error included; and for a codec none of whose
errors carries the message "key is not in subspace", `Unpack` returns that
error if and only if the key does not start with the prefix. -/
theorem Unpack_spec {Elem : Type} (tupleUnpack : List Byte → Except String (List Elem))
    (m : Mem) (s : subspace) (key : Slice) :
    (¬ load m s.b <+: load m key → s.Unpack tupleUnpack m key = .error errNotInSubspace) ∧
    (load m s.b <+: load m key →
      s.Unpack tupleUnpack m key = tupleUnpack ((load m key).drop s.b.len)) ∧
    ((∀ bs, tupleUnpack bs ≠ .error errNotInSubspace) →
      (s.Unpack tupleUnpack m key = .error errNotInSubspace ↔ ¬ load m s.b <+: load m key)) := by
  have hno := Unpack_outside tupleUnpack m s key
  have hyes := Unpack_inside tupleUnpack m s key
  refine ⟨hno, hyes, ?_⟩
  intro hcodec
  constructor
  · intro he hp
    rw [hyes hp] at he
    exact hcodec _ he
  · exact hno

/-- C2 at concrete inputs: the small codec never returns the error message of
`Unpack`; in `mem1` the subspace with prefix 1, 2, 3 rejects the key
2, 3, 255, 7, and the subspace with prefix 1, 2 decodes the key 1, 2, 3. -/
theorem Unpack_spec_witness :
    (subspace.Unpack exUnpack mem1 ⟨buf0⟩ keyOther = .error errNotInSubspace ↔
      ¬ load mem1 buf0 <+: load mem1 keyOther) ∧
    subspace.Unpack exUnpack mem1 ⟨⟨0, 0, 2⟩⟩ key123 = .ok [3] :=
  ⟨(Unpack_spec exUnpack mem1 ⟨buf0⟩ keyOther).2.2 exUnpack_ne, rfl⟩

/-- C3.  For a subspace `S` live in memory, an element list `x` and a tuple
`t`: `S.Contains(S.Sub(x...).Pack(t))` is true, and every key contained in
`S.Sub(x...)` is contained in `S`. -/
theorem Sub_contained_in_parent {Elem : Type} (tuplePack : List Elem → List Byte)
    (m : Mem) (s : subspace) (x t : List Elem) (hs : live m s.b) :
    s.Contains ((s.Sub tuplePack m x).2.Pack tuplePack (s.Sub tuplePack m x).1 t).1
        ((s.Sub tuplePack m x).2.Pack tuplePack (s.Sub tuplePack m x).1 t).2 = true ∧
    ∀ key : Slice, (s.Sub tuplePack m x).2.Contains (s.Sub tuplePack m x).1 key = true →
      s.Contains (s.Sub tuplePack m x).1 key = true := by
  have hd : load (s.Sub tuplePack m x).1 (s.Sub tuplePack m x).2.b = load m s.b ++ tuplePack x :=
    prefixOf_Sub tuplePack m s x hs
  have hs1 : live (s.Sub tuplePack m x).1 s.b := live_concat m s.b _ s.b hs
  have hf1 : load (s.Sub tuplePack m x).1 s.b = load m s.b := load_concat_frame m s.b _ s.b hs
  constructor
  · rw [Contains_iff]
    have hk := bytesOf_Pack tuplePack (s.Sub tuplePack m x).1 (s.Sub tuplePack m x).2 t
      (live_Sub tuplePack m s x)
    unfold bytesOf at hk
    have hf2 : load ((s.Sub tuplePack m x).2.Pack tuplePack (s.Sub tuplePack m x).1 t).1 s.b =
        load (s.Sub tuplePack m x).1 s.b := load_concat_frame _ _ _ s.b hs1
    rw [hk, hd, hf2, hf1, List.append_assoc]
    exact List.prefix_append _ _
  · intro key hk
    rw [Contains_iff] at hk ⊢
    rw [hd] at hk
    rw [hf1]
    exact (List.prefix_append _ _).trans hk

/-- C3 at concrete inputs: in `mem0`, for the subspace with prefix 1, 2, 3,
the element list 4 and the tuple 5. -/
theorem Sub_contained_in_parent_witness :
    live mem0 buf0 ∧
    subspace.Contains
      ((subspace.Sub exPack mem0 ⟨buf0⟩ [4]).2.Pack exPack (subspace.Sub exPack mem0 ⟨buf0⟩ [4]).1 [5]).1
      ⟨buf0⟩
      ((subspace.Sub exPack mem0 ⟨buf0⟩ [4]).2.Pack exPack (subspace.Sub exPack mem0 ⟨buf0⟩ [4]).1 [5]).2
      = true :=
  ⟨by decide, (Sub_contained_in_parent exPack mem0 ⟨buf0⟩ [4] [5] (by decide)).1⟩

/-- C4, the counterexample.  In `mem1` the key 1, 2, 3, 255 starts with the
prefix 1, 2, 3 of the subspace and is strictly longer, yet it is not strictly
below `EndKey()`, which is 1, 2, 3, 255 itself. -/
theorem scan_range_misses_ff_key :
    load mem1 buf0 <+: load mem1 keyFF ∧
    (load mem1 buf0).length < (load mem1 keyFF).length ∧
    bytesOf (subspace.EndKey mem1 ⟨buf0⟩) = [1, 2, 3, 255] ∧
    ¬ keyLT (load mem1 keyFF) (bytesOf (subspace.EndKey mem1 ⟨buf0⟩)) :=
  ⟨⟨[255], by decide⟩, by decide, by decide, by decide⟩

/-- C4, amended.  For a subspace `S` live in memory with prefix `p` and a key
`k = p ++ c :: r` (it starts with `p` and is strictly longer):
`S.BeginKey() <= k` always, and `k < S.EndKey()` exactly when the byte `c` that
follows the prefix is not `0xFF`; so every such key with `c` other than `0xFF`
lies in the scan range. -/
theorem scan_range_covers (m : Mem) (s : subspace) (key : Slice) (c : Byte) (r : List Byte)
    (hs : live m s.b) (hk : load m key = load m s.b ++ c :: r) :
    keyLE (bytesOf (s.BeginKey m)) (load m key) ∧
    (keyLT (load m key) (bytesOf (s.EndKey m)) ↔ c ≠ 255) ∧
    (c ≠ 255 →
      keyLE (bytesOf (s.BeginKey m)) (load m key) ∧ keyLT (load m key) (bytesOf (s.EndKey m))) := by
  have hb : keyLE (bytesOf (s.BeginKey m)) (load m key) := by
    rw [bytesOf_BeginKey m s hs, hk]
    unfold keyLE
    rw [Compare_append_left]
    exact keyLE_zero_cons c r
  have he : keyLT (load m key) (bytesOf (s.EndKey m)) ↔ c ≠ 255 := by
    rw [bytesOf_EndKey m s hs, hk]
    unfold keyLT
    rw [Compare_append_left]
    exact keyLT_cons_ff c r
  exact ⟨hb, he, fun hc => ⟨hb, he.mpr hc⟩⟩

/-- C4 amended, at concrete inputs: in `mem1` the key 1, 2, 3 of array 1 is in
the scan range of the subspace with prefix 1, 2. -/
theorem scan_range_covers_witness :
    live mem1 ⟨0, 0, 2⟩ ∧ load mem1 key123 = load mem1 ⟨0, 0, 2⟩ ++ 3 :: [] ∧
    keyLE (bytesOf (subspace.BeginKey mem1 ⟨⟨0, 0, 2⟩⟩)) (load mem1 key123) ∧
    keyLT (load mem1 key123) (bytesOf (subspace.EndKey mem1 ⟨⟨0, 0, 2⟩⟩)) :=
  ⟨by decide, by decide,
    (scan_range_covers mem1 ⟨⟨0, 0, 2⟩⟩ key123 3 [] (by decide) (by decide)).2.2 (by decide)⟩

/-- C5.  For a subspace `S` live in memory with prefix `p`: every key `k` with
`S.BeginKey() <= k < S.EndKey()` satisfies `S.Contains(k)` and differs from
`p`; and `p` itself is strictly below `S.BeginKey()`, so outside the range. -/
theorem scan_range_within (m : Mem) (s : subspace) (key : Slice) (hs : live m s.b)
    (h1 : keyLE (bytesOf (s.BeginKey m)) (load m key))
    (h2 : keyLT (load m key) (bytesOf (s.EndKey m))) :
    s.Contains m key = true ∧ load m key ≠ load m s.b ∧
    keyLT (load m s.b) (bytesOf (s.BeginKey m)) ∧
    ¬ keyLE (bytesOf (s.BeginKey m)) (load m s.b) := by
  rw [bytesOf_BeginKey m s hs] at h1 ⊢
  rw [bytesOf_EndKey m s hs] at h2
  obtain ⟨hp, hne⟩ := between_sentinels _ _ h1 h2
  have hlt : Compare (load m s.b) (load m s.b ++ [0]) = .lt := by
    have := Compare_append_left (load m s.b) [] [0]
    rw [List.append_nil] at this
    rw [this]; rfl
  have hgt : Compare (load m s.b ++ [0]) (load m s.b) = .gt := by
    have := Compare_append_left (load m s.b) [0] []
    rw [List.append_nil] at this
    rw [this]; rfl
  refine ⟨(Contains_iff m s key).mpr hp, hne, hlt, ?_⟩
  unfold keyLE
  simp [hgt]

/-- C5 at concrete inputs: in `mem1` the key 1, 2, 3 lies in the scan range of
the subspace with prefix 1, 2. -/
theorem scan_range_within_witness :
    live mem1 ⟨0, 0, 2⟩ ∧
    keyLE (bytesOf (subspace.BeginKey mem1 ⟨⟨0, 0, 2⟩⟩)) (load mem1 key123) ∧
    keyLT (load mem1 key123) (bytesOf (subspace.EndKey mem1 ⟨⟨0, 0, 2⟩⟩)) ∧
    subspace.Contains mem1 ⟨⟨0, 0, 2⟩⟩ key123 = true ∧
    load mem1 key123 ≠ load mem1 ⟨0, 0, 2⟩ :=
  ⟨by decide, by decide, by decide,
    (scan_range_within mem1 ⟨⟨0, 0, 2⟩⟩ key123 (by decide) (by decide) (by decide)).1,
    (scan_range_within mem1 ⟨⟨0, 0, 2⟩⟩ key123 (by decide) (by decide) (by decide)).2.1⟩

/-- C6.  For a subspace `S` live in memory and an element list `el`, the
prefix of `S.Sub(el...)`, read through `Bytes()`, is `S.Bytes()` followed by
the tuple encoding of `el`; and from the root, `AllKeys().Sub(a).Sub(b).Bytes()`
is the encoding of `[a]` followed by the encoding of `[b]`. -/
theorem Sub_Bytes {Elem : Type} (tuplePack : List Elem → List Byte)
    (m : Mem) (s : subspace) (el : List Elem) (a b : Elem) (hs : live m s.b) :
    load (s.Sub tuplePack m el).1 (s.Sub tuplePack m el).2.Bytes =
      load m s.Bytes ++ tuplePack el ∧
    load ((AllKeys.Sub tuplePack m [a]).2.Sub tuplePack (AllKeys.Sub tuplePack m [a]).1 [b]).1
        ((AllKeys.Sub tuplePack m [a]).2.Sub tuplePack (AllKeys.Sub tuplePack m [a]).1 [b]).2.Bytes =
      tuplePack [a] ++ tuplePack [b] := by
  constructor
  · exact prefixOf_Sub tuplePack m s el hs
  · have h0 : live m AllKeys.b := Or.inl rfl
    have h1 : load (AllKeys.Sub tuplePack m [a]).1 (AllKeys.Sub tuplePack m [a]).2.b =
        load m AllKeys.b ++ tuplePack [a] := prefixOf_Sub tuplePack m AllKeys [a] h0
    have h2 := prefixOf_Sub tuplePack (AllKeys.Sub tuplePack m [a]).1
      (AllKeys.Sub tuplePack m [a]).2 [b] (live_Sub tuplePack m AllKeys [a])
    unfold prefixOf at h2
    show load _ ((AllKeys.Sub tuplePack m [a]).2.Sub tuplePack _ [b]).2.b = _
    rw [h2, h1]
    simp [load, AllKeys, Slice.nil]

/-- C6 at concrete inputs: in `mem0`, the subspace with prefix 1, 2, 3
extended by the element 4, and the root extended by 5 and then 6. -/
theorem Sub_Bytes_witness :
    live mem0 buf0 ∧
    load (subspace.Sub exPack mem0 ⟨buf0⟩ [4]).1 (subspace.Sub exPack mem0 ⟨buf0⟩ [4]).2.Bytes =
      load mem0 buf0 ++ exPack [4] ∧
    load ((AllKeys.Sub exPack mem0 [5]).2.Sub exPack (AllKeys.Sub exPack mem0 [5]).1 [6]).1
        ((AllKeys.Sub exPack mem0 [5]).2.Sub exPack (AllKeys.Sub exPack mem0 [5]).1 [6]).2.Bytes =
      exPack [5] ++ exPack [6] :=
  ⟨by decide, Sub_Bytes exPack mem0 ⟨buf0⟩ [4] 5 6 (by decide)⟩

/-- C7.  For a subspace `S` live in memory with prefix `p` and a tuple `t`, the
key `S.Pack(t)` is `p` followed by the encoding of `t`: its length is
`len(p) + len(encode(t))`, its first `len(p)` bytes are `p` and the rest is
`encode(t)`. -/
theorem Pack_spec {Elem : Type} (tuplePack : List Elem → List Byte)
    (m : Mem) (s : subspace) (t : List Elem) (hs : live m s.b) :
    bytesOf (s.Pack tuplePack m t) = load m s.b ++ tuplePack t ∧
    (s.Pack tuplePack m t).2.len = s.b.len + (tuplePack t).length ∧
    (bytesOf (s.Pack tuplePack m t)).length = (load m s.b).length + (tuplePack t).length ∧
    (bytesOf (s.Pack tuplePack m t)).take s.b.len = load m s.b ∧
    (bytesOf (s.Pack tuplePack m t)).drop s.b.len = tuplePack t := by
  have h := bytesOf_Pack tuplePack m s t hs
  have hl : (load m s.b).length = s.b.len := load_length m s.b
  refine ⟨h, rfl, ?_, ?_, ?_⟩
  · rw [h, List.length_append]
  · rw [h, ← hl, List.take_left]
  · rw [h, ← hl, List.drop_left]

/-- C7 at concrete inputs: in `mem0`, the prefix 1, 2, 3 and the tuple 4, 5. -/
theorem Pack_spec_witness :
    live mem0 buf0 ∧ bytesOf (subspace.Pack exPack mem0 ⟨buf0⟩ [4, 5]) = [1, 2, 3] ++ [4, 5] :=
  ⟨by decide, (Pack_spec exPack mem0 ⟨buf0⟩ [4, 5] (by decide)).1⟩

/-- C8.  `S.Contains(k)` is true if and only if `k = p ++ r` for some byte
string `r`, where `p` is the prefix of `S`; it is false for every key shorter
than `p` and for every key that differs from `p` at some position below
`len(p)`. -/
theorem Contains_spec (m : Mem) (s : subspace) (key : Slice) :
    (s.Contains m key = true ↔ ∃ r, load m key = load m s.b ++ r) ∧
    (key.len < s.b.len → s.Contains m key = false) ∧
    (∀ i, i < s.b.len → (load m key)[i]? ≠ (load m s.b)[i]? → s.Contains m key = false) := by
  have hiff : s.Contains m key = true ↔ ∃ r, load m key = load m s.b ++ r := by
    rw [Contains_iff]
    constructor
    · rintro ⟨r, hr⟩; exact ⟨r, hr.symm⟩
    · rintro ⟨r, hr⟩; exact ⟨r, hr.symm⟩
  refine ⟨hiff, ?_, ?_⟩
  · intro hlt
    rw [← Bool.not_eq_true, hiff]
    rintro ⟨r, hr⟩
    have := congrArg List.length hr
    rw [List.length_append, load_length, load_length] at this
    omega
  · intro i hi hne
    rw [← Bool.not_eq_true, hiff]
    rintro ⟨r, hr⟩
    apply hne
    rw [hr, List.getElem?_append_left (by rw [load_length]; exact hi)]

/-- C8 at concrete inputs: in `mem1` the subspace with prefix 1, 2, 3 does not
contain the key 2, 3, 255, 7, which differs from the prefix at position 0. -/
theorem Contains_spec_witness :
    subspace.Contains mem1 ⟨buf0⟩ keyOther = false ∧
    subspace.Contains mem1 ⟨buf0⟩ keyFF = true :=
  ⟨(Contains_spec mem1 ⟨buf0⟩ keyOther).2.2 0 (by decide) (by decide), by decide⟩

/-- C9.  For a subspace `S` live in memory with prefix `p`: `S.BeginKey()` is
`p` followed by the byte `0x00`, `S.EndKey()` is `p` followed by the byte
`0xFF`, each of length `len(p) + 1`, and after either call the prefix of `S`
is still `p`. -/
theorem BeginKey_EndKey_spec (m : Mem) (s : subspace) (hs : live m s.b) :
    bytesOf (s.BeginKey m) = load m s.b ++ [0x00] ∧
    bytesOf (s.EndKey m) = load m s.b ++ [0xFF] ∧
    (bytesOf (s.BeginKey m)).length = s.b.len + 1 ∧
    (bytesOf (s.EndKey m)).length = s.b.len + 1 ∧
    load (s.BeginKey m).1 s.b = load m s.b ∧
    load (s.EndKey m).1 s.b = load m s.b ∧
    load (s.EndKey (s.BeginKey m).1).1 s.b = load m s.b := by
  refine ⟨bytesOf_BeginKey m s hs, bytesOf_EndKey m s hs, ?_, ?_, ?_, ?_, ?_⟩
  · rw [bytesOf_BeginKey m s hs, List.length_append, load_length]; rfl
  · rw [bytesOf_EndKey m s hs, List.length_append, load_length]; rfl
  · exact load_concat_frame m s.b _ s.b hs
  · exact load_concat_frame m s.b _ s.b hs
  · have h1 : load (s.BeginKey m).1 s.b = load m s.b := load_concat_frame m s.b _ s.b hs
    have hs1 : live (s.BeginKey m).1 s.b := live_concat m s.b _ s.b hs
    have h2 : load (s.EndKey (s.BeginKey m).1).1 s.b = load (s.BeginKey m).1 s.b :=
      load_concat_frame _ s.b _ s.b hs1
    rw [h2, h1]

/-- C9 at concrete inputs: in `mem0`, the subspace with prefix 1, 2, 3. -/
theorem BeginKey_EndKey_spec_witness :
    live mem0 buf0 ∧
    bytesOf (subspace.BeginKey mem0 ⟨buf0⟩) = [1, 2, 3] ++ [0x00] ∧
    bytesOf (subspace.EndKey mem0 ⟨buf0⟩) = [1, 2, 3] ++ [0xFF] :=
  ⟨by decide, (BeginKey_EndKey_spec mem0 ⟨buf0⟩ (by decide)).1,
    (BeginKey_EndKey_spec mem0 ⟨buf0⟩ (by decide)).2.1⟩

/-- C10.  For a subspace `S` live in memory and a tuple `t`, the key
`S.Pack(t)` passes the prefix test of `Unpack`, and `S.Unpack(S.Pack(t))`
equals `tuple.Unpack(t.Pack())` whatever the prefix is; so it returns `t`
whenever the codec round-trips `t`, and it is the error "key is not in
subspace" only if the codec itself returns an error with that message. -/
theorem Unpack_Pack {Elem : Type} (tuplePack : List Elem → List Byte)
    (tupleUnpack : List Byte → Except String (List Elem))
    (m : Mem) (s : subspace) (t : List Elem) (hs : live m s.b) :
    HasPrefix (bytesOf (s.Pack tuplePack m t)) (load (s.Pack tuplePack m t).1 s.b) = true ∧
    s.Unpack tupleUnpack (s.Pack tuplePack m t).1 (s.Pack tuplePack m t).2 =
      tupleUnpack (tuplePack t) ∧
    (tupleUnpack (tuplePack t) = .ok t →
      s.Unpack tupleUnpack (s.Pack tuplePack m t).1 (s.Pack tuplePack m t).2 = .ok t) ∧
    (tupleUnpack (tuplePack t) ≠ .error errNotInSubspace →
      s.Unpack tupleUnpack (s.Pack tuplePack m t).1 (s.Pack tuplePack m t).2 ≠
        .error errNotInSubspace) := by
  have hk : load (s.Pack tuplePack m t).1 (s.Pack tuplePack m t).2 = load m s.b ++ tuplePack t :=
    bytesOf_Pack tuplePack m s t hs
  have hf : load (s.Pack tuplePack m t).1 s.b = load m s.b := load_concat_frame m s.b _ s.b hs
  have hp : load (s.Pack tuplePack m t).1 s.b <+: load (s.Pack tuplePack m t).1 (s.Pack tuplePack m t).2 := by
    rw [hk, hf]; exact List.prefix_append _ _
  have hu : s.Unpack tupleUnpack (s.Pack tuplePack m t).1 (s.Pack tuplePack m t).2 =
      tupleUnpack (tuplePack t) := by
    rw [Unpack_inside tupleUnpack _ s _ hp, hk]
    have hl : (load m s.b).length = s.b.len := load_length m s.b
    rw [← hl, List.drop_left]
  refine ⟨(HasPrefix_iff _ _).mpr hp, hu, ?_, ?_⟩
  · intro hr; rw [hu, hr]
  · intro hr; rw [hu]; exact hr

/-- C10 at concrete inputs: in `mem0`, the prefix 1, 2, 3 and the tuple 4, 5,
which the small codec round-trips. -/
theorem Unpack_Pack_witness :
    live mem0 buf0 ∧
    subspace.Unpack exUnpack (subspace.Pack exPack mem0 ⟨buf0⟩ [4, 5]).1 ⟨buf0⟩
      (subspace.Pack exPack mem0 ⟨buf0⟩ [4, 5]).2 = .ok [4, 5] :=
  ⟨by decide, (Unpack_Pack exPack exUnpack mem0 ⟨buf0⟩ [4, 5] (by decide)).2.2.1 rfl⟩

end FdbGo
